import Mathlib

set_option maxHeartbeats 1000000

/-! Shallow embedding of the dead-link validation engine of this repository,
translated from api/api/utils/check_dead_links/init.py.  Network and cache
interactions are modelled by explicit oracles (an environment record) and an
effect trace; machine behaviour that the module only invokes (the provider
mapping table, the query-mask store, the Django settings object) is supplied
as data or, where the spec is the only source, modelled from the spec. -/

/-- One entry of provider_status_mappings: statuses in `live` keep a result,
statuses in `unknown` keep it with a warning, every other status is dead. -/
structure StatusMapping where
  live : List Int
  unknown : List Int
  deriving DecidableEq

/-- A search result entry (elasticsearch Hit) with the fields the engine
reads: result["provider"] and result["identifier"]. -/
structure Hit where
  provider : String
  identifier : String
  deriving DecidableEq

/-- Outcome of one HEAD probe attempt, abstracting the network: a numeric
HTTP status, an aiohttp.ClientError, a request timeout, or a timeout while
acquiring the concurrency-semaphore slot (TimeoutError raised out of
the flow-control context manager). -/
inductive ProbeOutcome where
  | success (status : Int)
  | clientError
  | reqTimeout
  | acquireTimeout
  deriving DecidableEq

/-- Python membership test `status in xs` where status is Optional[int]:
None is never equal to an int, so None is in no status set. -/
def optMem (status : Option Int) (xs : List Int) : Bool :=
  match status with
  | none => false
  | some s => xs.contains s

/-- Embedding of _head: returns (url, status) on success and (url, -1) when
the request raises ClientError or TimeoutError (which includes the
slot-acquire timeout re-raised by the flow-control manager). -/
def headProbe (url : String) (o : ProbeOutcome) : String × Int :=
  match o with
  | ProbeOutcome.success s => (url, s)
  | _ => (url, -1)

/-- Embedding of _make_head_requests: one task per url, gathered in order;
each element is the _head result for the url at that position. -/
def makeHeadRequests (urls : List String) (outcome : String → ProbeOutcome) :
    List (String × Int) :=
  urls.map (fun u => headProbe u (outcome u))

/-- Embedding of _flow_control wrapped around the body of _head, tracking the
semaphore counter (number of free slots).  On an acquire timeout the counter
is untouched and the probe yields the sentinel.  After a successful acquire
the counter drops by one; the release after the yield runs only when the
body returns normally, because the context manager has no try/finally around
the yield: an exception thrown into the generator skips the release.  The
release is guarded so it cannot push the counter above maxConc. -/
def flowControlHead (maxConc : Nat) (sem : Nat) (o : ProbeOutcome) (url : String) :
    (String × Int) × Nat :=
  match o with
  | ProbeOutcome.acquireTimeout => ((url, -1), sem)
  | ProbeOutcome.success s =>
      let semAcq := sem - 1
      if semAcq < maxConc then ((url, s), semAcq + 1) else ((url, s), semAcq)
  | _ => ((url, -1), sem - 1)

/-- The fixed cache namespace tag, CACHE_TAG here (the source spells it in
upper case ending in the word PRE-FIX): status cache keys are this string
prepended to the url. -/
def CACHE_TAG : String := "valid:"

/-- Embedding of _get_cached_statuses: when redis answers, an mget over the
tagged urls decoded to integers; on ConnectionError a warning is logged and
every url maps to None. -/
def getCachedStatuses (redisUp : Bool) (cache : String → Option Int)
    (image_urls : List String) : List (Option Int) :=
  if redisUp then image_urls.map (fun url => cache (CACHE_TAG ++ url))
  else List.replicate image_urls.length none

/-- Embedding of _get_expiry: the per-status environment setting when one is
configured, otherwise the supplied default. -/
def getExpiry (cfg : Int → Option Int) (status : Int) (default : Int) : Int :=
  (cfg status).getD default

/-- Modelled from the spec: settings.LINK_VALIDATION_CACHE_EXPIRY_CONFIGURATION
is not under src/; per spec section 4.2 it maps every status (the -1 sentinel
included) to a TTL, with statuses missing from the table falling back to a
configured default, which is exactly _get_expiry applied per status. -/
def expiryTable (cfg : Int → Option Int) (default : Int) (status : Int) : Int :=
  getExpiry cfg status default

/-- Python dict assignment d[k] = v: an existing key keeps its position and
gets the new value, a new key is appended. -/
def dictInsert (d : List (String × Nat)) (k : String) (v : Nat) :
    List (String × Nat) :=
  if d.any (fun p => p.1 == k) then
    d.map (fun p => if p.1 == k then (k, v) else p)
  else d ++ [(k, v)]

/-- Embedding of the to_verify construction: for idx, url in
enumerate(image_urls), if cached_statuses[idx] is None then
to_verify[url] = idx.  The two lists always have equal length at the call
site, so parallel recursion is faithful. -/
def buildToVerify : List String → List (Option Int) → Nat →
    List (String × Nat) → List (String × Nat)
  | [], _, _, d => d
  | _ :: _, [], _, d => d
  | _ :: urls, some _ :: sts, idx, d => buildToVerify urls sts (idx + 1) d
  | url :: urls, none :: sts, idx, d =>
      buildToVerify urls sts (idx + 1) (dictInsert d url idx)

/-- Embedding of the merge step: for idx, url in enumerate(to_verify),
cached_statuses[to_verify[url]] = verified[idx][1].  The dict is iterated in
key order, which is also the order the probe results come back in. -/
def mergeVerified (statuses : List (Option Int)) (toVerify : List (String × Nat))
    (verified : List (String × Int)) : List (Option Int) :=
  (toVerify.zip verified).foldl (fun st p => st.set p.1.2 (some p.2.2)) statuses

/-- A position survives the deletion loop iff its status is in the provider's
unknown set (kept with a warning) or in its live set. -/
def keepB (mappings : String → StatusMapping) (p : Option Int × Hit) : Bool :=
  optMem p.1 (mappings p.2.provider).unknown || optMem p.1 (mappings p.2.provider).live

/-- One iteration of the deletion loop at position delIdx: read
cached_statuses[del_idx] and results[del_idx]["provider"], classify, and on a
dead status delete results[del_idx] and zero new_mask[del_idx].  Out-of-bounds
indexing (a Python IndexError) is modelled as None. -/
def dlStep (mappings : String → StatusMapping) (statuses : List (Option Int))
    (st : List Hit × List Nat) (delIdx : Nat) : Option (List Hit × List Nat) :=
  match statuses.get? delIdx, st.1.get? delIdx with
  | some status, some hit =>
      let sm := mappings hit.provider
      if optMem status sm.unknown then some st
      else if optMem status sm.live then some st
      else if delIdx < st.2.length then
        some (st.1.eraseIdx delIdx, st.2.set delIdx 0)
      else none
  | _, _ => none

/-- The deletion loop, iterating del_idx from k-1 down to 0 (the source walks
idx upward and uses del_idx = len(cached_statuses) - idx - 1). -/
def delLoop (mappings : String → StatusMapping) (statuses : List (Option Int)) :
    Nat → List Hit × List Nat → Option (List Hit × List Nat)
  | 0, st => some st
  | k + 1, st => (dlStep mappings statuses st k).bind (delLoop mappings statuses k)

/-- The whole broken-image deletion phase: start from the untouched results
and an all-ones mask of the same length, then run the reverse loop once per
status. -/
def deleteDead (mappings : String → StatusMapping) (statuses : List (Option Int))
    (results : List Hit) : Option (List Hit × List Nat) :=
  delLoop mappings statuses statuses.length (results, List.replicate results.length 1)

/-- Embedding of the mask reconciliation (and of the mask store interface,
modelled from spec section 4.5 as an optional stored bit-vector): with a
stored mask, keep its first start_slice bits and append the provisional
mask; with no stored mask, the provisional mask is used as-is. -/
def mergeMask (stored : Option (List Nat)) (start_slice : Nat)
    (provisional : List Nat) : List Nat :=
  match stored with
  | some m => m.take start_slice ++ provisional
  | none => provisional

/-- Externally visible operations of one validation call, in program order:
the redis mget, each HEAD probe, the redis mset, each per-key expire, the
mask load and the mask save. -/
inductive Effect where
  | cacheRead (keys : List String)
  | probe (url : String)
  | cacheWrite (kv : List (String × Int))
  | expire (key : String) (ttl : Int)
  | maskLoad
  | maskSave (mask : List Nat)
  deriving DecidableEq

/-- The oracles one validation call runs against: whether redis answers, the
cache contents, the network behaviour per url, the TTL settings, the stored
mask for this query and the provider mapping table. -/
structure Env where
  redisUp : Bool
  cache : String → Option Int
  probeOutcome : String → ProbeOutcome
  ttlConfig : Int → Option Int
  ttlDefault : Int
  storedMask : Option (List Nat)
  mappings : String → StatusMapping

/-- The status at the position a url was probed for, as _head reports it. -/
def probeStatus (env : Env) (url : String) : Int :=
  (headProbe url (env.probeOutcome url)).2

/-- The to_verify dict of one call: the source's let-bound intermediate,
lifted to a named definition. -/
def toVerifyOf (env : Env) (image_urls : List String) : List (String × Nat) :=
  buildToVerify image_urls (getCachedStatuses env.redisUp env.cache image_urls) 0 []

/-- The verified list of one call: _make_head_requests over to_verify.keys(). -/
def verifiedOf (env : Env) (image_urls : List String) : List (String × Int) :=
  makeHeadRequests ((toVerifyOf env image_urls).map Prod.fst) env.probeOutcome

/-- The to_cache dict of one call: tagged url mapped to fresh status.  Its
keys are distinct because to_verify's keys are, so the dict comprehension is
just a map. -/
def toCacheOf (env : Env) (image_urls : List String) : List (String × Int) :=
  (verifiedOf env image_urls).map (fun p => (CACHE_TAG ++ p.1, p.2))

/-- The cache write-back effects of one call: the buffered mset (issued only
when to_cache is non-empty) and one expire per key with the TTL drawn from
the per-status expiry configuration; when redis is down pipe.execute raises
ConnectionError, the handler logs and drops the whole batch. -/
def writeEffsOf (env : Env) (image_urls : List String) : List Effect :=
  if env.redisUp then
    (if 0 < (toCacheOf env image_urls).length then
        [Effect.cacheWrite (toCacheOf env image_urls)] else []) ++
      (toCacheOf env image_urls).map
        (fun p => Effect.expire p.1 (expiryTable env.ttlConfig env.ttlDefault p.2))
  else []

/-- The per-position statuses after the cache lookup and the merge of fresh
probe results (the value of cached_statuses once the merge loop has run). -/
def mergedStatuses (env : Env) (image_urls : List String) : List (Option Int) :=
  mergeVerified (getCachedStatuses env.redisUp env.cache image_urls)
    (toVerifyOf env image_urls) (verifiedOf env image_urls)

/-- The effect trace of one non-empty validation call, in program order: the
mget, the HEAD probes over to_verify's keys, the write-back, the mask load
and the save of the reconciled mask. -/
def traceOf (env : Env) (start_slice : Nat) (provisional : List Nat)
    (image_urls : List String) : List Effect :=
  Effect.cacheRead (image_urls.map (fun u => CACHE_TAG ++ u)) ::
    ((toVerifyOf env image_urls).map (fun p => Effect.probe p.1) ++
      writeEffsOf env image_urls ++
      [Effect.maskLoad,
       Effect.maskSave (mergeMask env.storedMask start_slice provisional)])

/-- Embedding of check_dead_links: the empty-url fast path, the cache
lookup, the probe fan-out over the to_verify keys, the buffered write-back
(dropped when redis is down, since pipe.execute raises and the error is
swallowed), the merge, the reverse deletion loop (None on an out-of-bounds
index, the only way the source can raise), and the mask reconciliation.
The source's let-bound intermediates are lifted into the named definitions
above. -/
def check_dead_links (env : Env) (start_slice : Nat) (results : List Hit)
    (image_urls : List String) : Option (List Hit × List Effect) :=
  if image_urls.isEmpty then some (results, [])
  else
    match deleteDead env.mappings (mergedStatuses env image_urls) results with
    | none => none
    | some (newResults, provisional) =>
        some (newResults, traceOf env start_slice provisional image_urls)

/-- The survivors of the deletion phase: positions whose (status, hit) pair
classifies as live or unknown, in their original order. -/
def keptHits (mappings : String → StatusMapping) (sts : List (Option Int))
    (res : List Hit) : List Hit :=
  ((sts.zip res).filter (keepB mappings)).map Prod.snd

/-- The mask the deletion phase produces from an arbitrary starting mask:
kept positions retain their bit, dead positions are zeroed. -/
def maskAfter (mappings : String → StatusMapping) (sts : List (Option Int))
    (res : List Hit) (mask : List Nat) : List Nat :=
  ((sts.zip res).zip mask).map (fun q => if keepB mappings q.1 then q.2 else 0)

/-- The provisional mask of one call: 1 at kept positions, 0 at dead ones. -/
def liveMask (mappings : String → StatusMapping) (sts : List (Option Int))
    (res : List Hit) : List Nat :=
  (sts.zip res).map (fun p => if keepB mappings p then 1 else 0)

/-! Sample oracles used by concrete witnesses. -/

/-- A sample environment: redis up, empty cache, every probe succeeds with
status 200, no TTL overrides, no stored mask, one provider accepting 200. -/
def envA : Env where
  redisUp := true
  cache := fun _ => none
  probeOutcome := fun _ => ProbeOutcome.success 200
  ttlConfig := fun _ => none
  ttlDefault := 60
  storedMask := none
  mappings := fun _ => { live := [200], unknown := [429] }

/-! Claim theorems. -/

/-- Claim C9: with an empty URL list the validation returns immediately, the
result collection is unchanged and the effect trace is empty: no probe, no
cache read or write, no mask load or save. -/
theorem check_dead_links_empty_noop (env : Env) (start_slice : Nat)
    (results : List Hit) :
    check_dead_links env start_slice results [] = some (results, []) := rfl

/-- Claim C6: with the cache backend down, the cached-status lookup returns a
list of None of the same length as the input, so every URL is treated as
to-verify; the embedding is a total function, so nothing is raised. -/
theorem getCachedStatuses_down_all_none (cache : String → Option Int)
    (urls : List String) :
    getCachedStatuses false cache urls = List.replicate urls.length none ∧
    (getCachedStatuses false cache urls).length = urls.length := by
  refine ⟨rfl, ?_⟩
  simp [getCachedStatuses]

/-- Claim C5: the probe batch yields exactly one (url, status) pair per input
position; a ClientError, a request timeout or a slot-acquire timeout at a URL
yields the (url, -1) sentinel instead of a failure; and the entry at a
position depends only on that URL's own outcome, so one URL's failure cannot
abort or alter sibling probes. -/
theorem makeHeadRequests_per_url (urls : List String)
    (outcome : String → ProbeOutcome) (i : Nat) (u : String)
    (hu : urls.get? i = some u) :
    (makeHeadRequests urls outcome).length = urls.length ∧
    (makeHeadRequests urls outcome).get? i = some (headProbe u (outcome u)) ∧
    (outcome u = ProbeOutcome.clientError ∨ outcome u = ProbeOutcome.reqTimeout ∨
        outcome u = ProbeOutcome.acquireTimeout →
      (makeHeadRequests urls outcome).get? i = some (u, -1)) ∧
    (∀ outcome2 : String → ProbeOutcome, outcome2 u = outcome u →
      (makeHeadRequests urls outcome2).get? i = (makeHeadRequests urls outcome).get? i) := by
  refine ⟨by simp [makeHeadRequests], ?_, ?_, ?_⟩
  · rw [makeHeadRequests, List.get?_map, hu]
    rfl
  · intro hfail
    rw [makeHeadRequests, List.get?_map, hu]
    rcases hfail with h | h | h <;> simp [headProbe, h]
  · intro outcome2 heq
    rw [makeHeadRequests, List.get?_map, hu, makeHeadRequests, List.get?_map, hu]
    simp [heq]

/-- Witness for C5 at a concrete input: one URL whose probe times out. -/
theorem makeHeadRequests_per_url_witness :
    (makeHeadRequests ["a"] (fun _ => ProbeOutcome.reqTimeout)).get? 0
      = some ("a", -1) := by
  have h := makeHeadRequests_per_url ["a"] (fun _ => ProbeOutcome.reqTimeout) 0 "a" rfl
  exact h.2.2.1 (Or.inr (Or.inl rfl))

/-- Counterexample to claim C8 as stated: the release after the yield of the
flow-control context manager is not protected by try/finally, so when the
HEAD request raises (here a ClientError) the exception thrown into the
generator skips the release.  With 5 slots configured and 5 free, a failing
probe that acquired a slot leaves only 4 free: the slot was not released even
though the probe completed (with a failure). -/
theorem flowControlHead_no_release_on_failure :
    flowControlHead 5 5 ProbeOutcome.clientError "u" = (("u", -1), 4) ∧
    (flowControlHead 5 5 ProbeOutcome.clientError "u").2 ≠ 5 := by
  decide

/-- Claim C8 as amended: when the probe body completes without raising, the
slot is released and the counter returns to its starting value, never
exceeding the configured maximum; when the body raises, the exception skips
the release and the slot stays taken; an acquire timeout leaves the counter
untouched; and if the counter has drifted to the maximum or above at release
time, the guard withholds the release. -/
theorem flowControlHead_release_policy (maxConc sem : Nat) (url : String)
    (s : Int) (hpos : 0 < sem) (hle : sem ≤ maxConc) :
    (flowControlHead maxConc sem (ProbeOutcome.success s) url).2 = sem ∧
    (flowControlHead maxConc sem (ProbeOutcome.success s) url).2 ≤ maxConc ∧
    (flowControlHead maxConc sem ProbeOutcome.clientError url).2 = sem - 1 ∧
    (flowControlHead maxConc sem ProbeOutcome.reqTimeout url).2 = sem - 1 ∧
    (flowControlHead maxConc sem ProbeOutcome.acquireTimeout url).2 = sem ∧
    (∀ semDrift : Nat, ¬ semDrift - 1 < maxConc →
      (flowControlHead maxConc semDrift (ProbeOutcome.success s) url).2 = semDrift - 1) := by
  have hlt : sem - 1 < maxConc := by omega
  refine ⟨?_, ?_, rfl, rfl, rfl, ?_⟩
  · simp only [flowControlHead, hlt, if_true]
    omega
  · simp only [flowControlHead, hlt, if_true]
    omega
  · intro semDrift hge
    simp only [flowControlHead, hge, if_false]

/-- Witness for the amended C8 at a concrete input: 3 of 5 slots free, a
successful probe returns the counter to 3. -/
theorem flowControlHead_release_policy_witness :
    (flowControlHead 5 3 (ProbeOutcome.success 200) "u").2 = 3 := by
  exact (flowControlHead_release_policy 5 3 "u" 200 (by decide) (by decide)).1

/-! The reverse deletion loop equals a single forward filter pass. -/

lemma get?_append_len {α : Type} (l₁ : List α) (a : α) (l₂ : List α) :
    (l₁ ++ a :: l₂).get? l₁.length = some a := by
  rw [List.get?_append_right (Nat.le_refl _)]
  simp

lemma eraseIdx_append_len {α : Type} (l₁ : List α) (a : α) (l₂ : List α) :
    (l₁ ++ a :: l₂).eraseIdx l₁.length = l₁ ++ l₂ := by
  induction l₁ with
  | nil => rfl
  | cons x xs ih =>
      simp only [List.cons_append, List.length_cons, List.eraseIdx_cons_succ, ih]

lemma set_append_len {α : Type} (l₁ : List α) (a b : α) (l₂ : List α) :
    (l₁ ++ a :: l₂).set l₁.length b = l₁ ++ b :: l₂ := by
  induction l₁ with
  | nil => rfl
  | cons x xs ih =>
      simp only [List.cons_append, List.length_cons, List.set_cons_succ, ih]

lemma keptHits_concat (mappings : String → StatusMapping) (sts : List (Option Int))
    (res : List Hit) (s : Option Int) (h : Hit) (hlen : sts.length = res.length) :
    keptHits mappings (sts ++ [s]) (res ++ [h])
      = keptHits mappings sts res ++ (if keepB mappings (s, h) then [h] else []) := by
  unfold keptHits
  rw [List.zip_append hlen, List.filter_append, List.map_append]
  by_cases hk : keepB mappings (s, h) <;> simp [hk]

lemma maskAfter_concat (mappings : String → StatusMapping) (sts : List (Option Int))
    (res : List Hit) (mask : List Nat) (s : Option Int) (h : Hit) (m : Nat)
    (hlen : sts.length = res.length) (hlen2 : res.length = mask.length) :
    maskAfter mappings (sts ++ [s]) (res ++ [h]) (mask ++ [m])
      = maskAfter mappings sts res mask ++ [if keepB mappings (s, h) then m else 0] := by
  unfold maskAfter
  have hz : (sts.zip res).length = mask.length := by
    rw [List.length_zip, hlen, hlen2, Nat.min_self]
  rw [List.zip_append hlen, List.zip_append hz, List.map_append]
  rfl

lemma delLoop_spec (mappings : String → StatusMapping) (sts : List (Option Int)) :
    ∀ (tailSts : List (Option Int)) (res : List Hit) (mask : List Nat)
      (extraR : List Hit) (extraM : List Nat),
      sts.length = res.length → res.length = mask.length →
      delLoop mappings (sts ++ tailSts) sts.length (res ++ extraR, mask ++ extraM)
        = some (keptHits mappings sts res ++ extraR,
                maskAfter mappings sts res mask ++ extraM) := by
  induction sts using List.reverseRecOn with
  | nil =>
      intro tailSts res mask extraR extraM h1 h2
      have hres : res = [] := List.length_eq_zero.mp (by simpa using h1.symm)
      subst hres
      have hmask : mask = [] := List.length_eq_zero.mp (by simpa using h2.symm)
      subst hmask
      simp [delLoop, keptHits, maskAfter]
  | append_singleton sts₀ s ih =>
      intro tailSts res mask extraR extraM h1 h2
      rcases List.eq_nil_or_concat res with rfl | ⟨res₀, hh, rfl⟩
      · simp at h1
      rw [List.concat_eq_append] at h1 h2 ⊢
      rcases List.eq_nil_or_concat mask with rfl | ⟨mask₀, m, rfl⟩
      · simp at h2
      rw [List.concat_eq_append] at h2 ⊢
      have hl1 : sts₀.length = res₀.length := by simpa using h1
      have hl2 : res₀.length = mask₀.length := by simpa using h2
      have hcount : (sts₀ ++ [s]).length = sts₀.length + 1 := by simp
      rw [hcount, List.append_assoc, List.append_assoc, List.append_assoc,
        List.singleton_append, List.singleton_append, List.singleton_append, delLoop]
      have hst : (sts₀ ++ s :: tailSts).get? sts₀.length = some s := get?_append_len _ _ _
      have hres : (res₀ ++ hh :: extraR).get? sts₀.length = some hh := by
        rw [hl1]; exact get?_append_len _ _ _
      by_cases hu : optMem s (mappings hh.provider).unknown
      · have hstep : dlStep mappings (sts₀ ++ s :: tailSts)
            (res₀ ++ hh :: extraR, mask₀ ++ m :: extraM) sts₀.length
            = some (res₀ ++ hh :: extraR, mask₀ ++ m :: extraM) := by
          simp only [dlStep, hst, hres, hu, if_true]
        rw [hstep, Option.some_bind,
          ih (s :: tailSts) res₀ mask₀ (hh :: extraR) (m :: extraM) hl1 hl2,
          keptHits_concat mappings sts₀ res₀ s hh hl1,
          maskAfter_concat mappings sts₀ res₀ mask₀ s hh m hl1 hl2]
        have hk : keepB mappings (s, hh) = true := by simp [keepB, hu]
        simp [hk, List.append_assoc]
      · by_cases hl : optMem s (mappings hh.provider).live
        · have hstep : dlStep mappings (sts₀ ++ s :: tailSts)
              (res₀ ++ hh :: extraR, mask₀ ++ m :: extraM) sts₀.length
              = some (res₀ ++ hh :: extraR, mask₀ ++ m :: extraM) := by
            unfold dlStep
            simp only [hst, hres]
            rw [if_neg hu, if_pos hl]
          rw [hstep, Option.some_bind,
            ih (s :: tailSts) res₀ mask₀ (hh :: extraR) (m :: extraM) hl1 hl2,
            keptHits_concat mappings sts₀ res₀ s hh hl1,
            maskAfter_concat mappings sts₀ res₀ mask₀ s hh m hl1 hl2]
          have hk : keepB mappings (s, hh) = true := by simp [keepB, hl]
          simp [hk, List.append_assoc]
        · have hguard : sts₀.length < (mask₀ ++ m :: extraM).length := by
            simp only [List.length_append, List.length_cons]
            omega
          have hstep : dlStep mappings (sts₀ ++ s :: tailSts)
              (res₀ ++ hh :: extraR, mask₀ ++ m :: extraM) sts₀.length
              = some ((res₀ ++ hh :: extraR).eraseIdx sts₀.length,
                      (mask₀ ++ m :: extraM).set sts₀.length 0) := by
            unfold dlStep
            simp only [hst, hres]
            rw [if_neg hu, if_neg hl, if_pos hguard]
          have her : (res₀ ++ hh :: extraR).eraseIdx sts₀.length = res₀ ++ extraR := by
            rw [hl1]; exact eraseIdx_append_len _ _ _
          have hset : (mask₀ ++ m :: extraM).set sts₀.length 0 = mask₀ ++ 0 :: extraM := by
            rw [hl1, hl2]; exact set_append_len _ _ _ _
          rw [hstep, her, hset, Option.some_bind,
            ih (s :: tailSts) res₀ mask₀ extraR (0 :: extraM) hl1 hl2,
            keptHits_concat mappings sts₀ res₀ s hh hl1,
            maskAfter_concat mappings sts₀ res₀ mask₀ s hh m hl1 hl2]
          have hk : keepB mappings (s, hh) = false := by simp [keepB, hu, hl]
          simp [hk, List.append_assoc]

lemma maskAfter_replicate (mappings : String → StatusMapping) :
    ∀ (sts : List (Option Int)) (res : List Hit), sts.length = res.length →
      maskAfter mappings sts res (List.replicate res.length 1)
        = liveMask mappings sts res := by
  intro sts
  induction sts with
  | nil =>
      intro res h
      have : res = [] := List.length_eq_zero.mp (by simpa using h.symm)
      subst this
      rfl
  | cons s sts ih =>
      intro res h
      cases res with
      | nil => simp at h
      | cons hh res =>
          have hlen : sts.length = res.length := by simpa using h
          simp only [List.length_cons, List.replicate_succ, maskAfter, liveMask,
            List.zip_cons_cons, List.map_cons]
          have htail := ih res hlen
          simp only [maskAfter, liveMask] at htail
          rw [htail]

lemma deleteDead_eq (mappings : String → StatusMapping) (sts : List (Option Int))
    (res : List Hit) (h : sts.length = res.length) :
    deleteDead mappings sts res
      = some (keptHits mappings sts res, liveMask mappings sts res) := by
  have hspec := delLoop_spec mappings sts [] res (List.replicate res.length 1) [] []
    h (by simp)
  rw [deleteDead]
  simpa [maskAfter_replicate mappings sts res h] using hspec

/-- Claim C1: under the parallel-lists precondition, the reverse deletion
loop classifies each position by its own entry's provider mapping; an
unknown status keeps the entry, a status neither live nor unknown removes it
and zeroes that mask bit; the survivors are a sublist of the input (relative
order preserved) and the collection shrinks by exactly the number of dead
entries. -/
theorem deleteDead_filters_dead (mappings : String → StatusMapping)
    (sts : List (Option Int)) (res : List Hit) (h : sts.length = res.length) :
    deleteDead mappings sts res
        = some (keptHits mappings sts res, liveMask mappings sts res) ∧
    (keptHits mappings sts res).Sublist res ∧
    (keptHits mappings sts res).length
        + (sts.zip res).countP (fun p => ! keepB mappings p) = res.length := by
  refine ⟨deleteDead_eq mappings sts res h, ?_, ?_⟩
  · have h1 : (sts.zip res).map Prod.snd = res :=
      List.map_snd_zip sts res (le_of_eq h.symm)
    have hsub : (keptHits mappings sts res).Sublist ((sts.zip res).map Prod.snd) :=
      List.Sublist.map Prod.snd (List.filter_sublist _)
    rw [h1] at hsub
    exact hsub
  · have h2 : (keptHits mappings sts res).length
        = (sts.zip res).countP (keepB mappings) := by
      rw [keptHits, List.length_map, ← List.countP_eq_length_filter]
    have h3 : (sts.zip res).length = res.length := by
      rw [List.length_zip, h, Nat.min_self]
    have h4 := List.length_eq_countP_add_countP (keepB mappings) (sts.zip res)
    rw [h2, ← h3, h4]
    congr 1
    apply List.countP_congr
    intro p _
    cases keepB mappings p <;> simp

/-- Witness for C1: the spec's concrete scenario, provider mapping
live=200/unknown=429 and statuses [200, 404, 429] over results A, B, C:
B is removed, A and C survive in order, and the mask is [1, 0, 1]. -/
theorem deleteDead_filters_dead_witness :
    deleteDead (fun _ => { live := [200], unknown := [429] })
        [some 200, some 404, some 429]
        [⟨"prov", "A"⟩, ⟨"prov", "B"⟩, ⟨"prov", "C"⟩]
      = some ([⟨"prov", "A"⟩, ⟨"prov", "C"⟩], [1, 0, 1]) := by
  have h := deleteDead_filters_dead (fun _ => { live := [200], unknown := [429] })
    [some 200, some 404, some 429]
    [⟨"prov", "A"⟩, ⟨"prov", "B"⟩, ⟨"prov", "C"⟩] (by decide)
  rw [h.1]
  decide

/-! Lengths through the pipeline, and the shape of a successful call. -/

lemma length_getCachedStatuses (redisUp : Bool) (cache : String → Option Int)
    (urls : List String) :
    (getCachedStatuses redisUp cache urls).length = urls.length := by
  cases redisUp <;> simp [getCachedStatuses]

lemma length_foldl_set (l : List ((String × Nat) × (String × Int))) :
    ∀ init : List (Option Int),
      (l.foldl (fun st p => st.set p.1.2 (some p.2.2)) init).length = init.length := by
  induction l with
  | nil => intro init; rfl
  | cons p l ih => intro init; rw [List.foldl_cons, ih, List.length_set]

lemma length_mergedStatuses (env : Env) (urls : List String) :
    (mergedStatuses env urls).length = urls.length := by
  rw [mergedStatuses, mergeVerified, length_foldl_set, length_getCachedStatuses]

lemma check_dead_links_eq (env : Env) (start_slice : Nat) (results : List Hit)
    (image_urls : List String) (h : image_urls.length = results.length)
    (hne : image_urls.isEmpty = false) :
    check_dead_links env start_slice results image_urls
      = some (keptHits env.mappings (mergedStatuses env image_urls) results,
          traceOf env start_slice
            (liveMask env.mappings (mergedStatuses env image_urls) results)
            image_urls) := by
  have hlen : (mergedStatuses env image_urls).length = results.length := by
    rw [length_mergedStatuses]; exact h
  simp [check_dead_links, hne,
    deleteDead_eq env.mappings (mergedStatuses env image_urls) results hlen]

lemma check_dead_links_total (env : Env) (start_slice : Nat) (results : List Hit)
    (image_urls : List String) (h : image_urls.length = results.length) :
    (check_dead_links env start_slice results image_urls).isSome := by
  cases hne : image_urls.isEmpty with
  | true => simp [check_dead_links, hne]
  | false => rw [check_dead_links_eq env start_slice results image_urls h hne]; rfl

/-- Claim C10: with image_urls and results of equal length, every indexed
access in the reverse deletion loop stays in bounds, so the loop (whose
embedding returns None exactly on an out-of-bounds access) and the whole
call produce a value. -/
theorem reverse_deletion_in_bounds (env : Env) (start_slice : Nat)
    (results : List Hit) (image_urls : List String)
    (h : image_urls.length = results.length) :
    (deleteDead env.mappings (mergedStatuses env image_urls) results).isSome ∧
    (check_dead_links env start_slice results image_urls).isSome := by
  constructor
  · rw [deleteDead_eq env.mappings _ results (by rw [length_mergedStatuses]; exact h)]
    rfl
  · exact check_dead_links_total env start_slice results image_urls h

/-- Witness for C10 at a concrete input. -/
theorem reverse_deletion_in_bounds_witness :
    (check_dead_links envA 0 [⟨"p", "A"⟩] ["u"]).isSome :=
  (reverse_deletion_in_bounds envA 0 [⟨"p", "A"⟩] ["u"] rfl).2

/-- Claim C2: with a stored mask for the query, the saved mask is the stored
mask's prefix up to start_slice followed by the provisional mask, so bits at
positions before start_slice (earlier pages) are unchanged; with no stored
mask the provisional mask is saved as-is; and a successful non-empty call
saves exactly the reconciliation of the stored mask with the provisional
mask it computed. -/
theorem mask_merge_preserves_earlier_pages (env : Env) (start_slice : Nat)
    (results : List Hit) (image_urls : List String) (m provisional : List Nat)
    (i : Nat) (h1 : i < start_slice) (h2 : i < m.length) :
    mergeMask (some m) start_slice provisional = m.take start_slice ++ provisional ∧
    (mergeMask (some m) start_slice provisional).get? i = m.get? i ∧
    mergeMask none start_slice provisional = provisional ∧
    (∀ res trace,
      check_dead_links env start_slice results image_urls = some (res, trace) →
      image_urls ≠ [] →
      ∃ prov, deleteDead env.mappings (mergedStatuses env image_urls) results
          = some (res, prov) ∧
        Effect.maskSave (mergeMask env.storedMask start_slice prov) ∈ trace) := by
  refine ⟨rfl, ?_, rfl, ?_⟩
  · show (m.take start_slice ++ provisional).get? i = m.get? i
    have hi : i < (m.take start_slice).length := by
      rw [List.length_take]
      omega
    rw [List.get?_append hi, List.get?_take h1]
  · intro res trace hchk hne'
    have hne : image_urls.isEmpty = false := by
      cases image_urls with
      | nil => exact absurd rfl hne'
      | cons u urls => rfl
    rcases hdel : deleteDead env.mappings (mergedStatuses env image_urls) results with
      _ | ⟨newR, prov⟩
    · rw [check_dead_links] at hchk
      simp [hne, hdel] at hchk
    · rw [check_dead_links] at hchk
      simp only [hne, Bool.false_eq_true, if_false, hdel] at hchk
      have hpair := Option.some_inj.mp hchk
      have hres2 : newR = res := congrArg Prod.fst hpair
      have htr : traceOf env start_slice prov image_urls = trace :=
        congrArg Prod.snd hpair
      refine ⟨prov, ?_, ?_⟩
      · rw [hres2]
      · rw [← htr]
        simp [traceOf]

/-- Witness for C2 at a concrete input: stored mask [1,0], offset 2,
provisional [1,1]. -/
theorem mask_merge_preserves_earlier_pages_witness :
    mergeMask (some [1, 0]) 2 [1, 1] = [1, 0, 1, 1] := by
  have h := mask_merge_preserves_earlier_pages envA 2 [⟨"p", "A"⟩] ["u"] [1, 0] [1, 1]
    1 (by decide) (by decide)
  rw [h.1]
  decide

/-! The to_verify dict: its keys are distinct, and a url is a key exactly
when some position holds it with no cached status. -/

lemma dictInsert_keys (d : List (String × Nat)) (k : String) (v : Nat) :
    (dictInsert d k v).map Prod.fst
      = if d.any (fun p => p.1 == k) then d.map Prod.fst
        else d.map Prod.fst ++ [k] := by
  unfold dictInsert
  by_cases hex : d.any (fun p => p.1 == k)
  · rw [if_pos hex, if_pos hex, List.map_map]
    apply List.map_congr_left
    intro p _
    by_cases hpk : p.1 == k
    · simp only [Function.comp, hpk, if_true]
      exact (eq_of_beq hpk).symm
    · simp [Function.comp, hpk]
  · rw [if_neg hex, if_neg hex, List.map_append]
    rfl

lemma dictInsert_keys_mem (d : List (String × Nat)) (k : String) (v : Nat)
    (u : String) :
    u ∈ (dictInsert d k v).map Prod.fst ↔ u ∈ d.map Prod.fst ∨ u = k := by
  rw [dictInsert_keys]
  by_cases hex : d.any (fun p => p.1 == k)
  · rw [if_pos hex]
    constructor
    · exact Or.inl
    · rintro (h | rfl)
      · exact h
      · rcases List.any_eq_true.mp hex with ⟨p, hp, hpk⟩
        exact List.mem_map.mpr ⟨p, hp, eq_of_beq hpk⟩
  · rw [if_neg hex]
    simp

lemma dictInsert_keys_nodup (d : List (String × Nat)) (k : String) (v : Nat)
    (h : (d.map Prod.fst).Nodup) :
    ((dictInsert d k v).map Prod.fst).Nodup := by
  rw [dictInsert_keys]
  by_cases hex : d.any (fun p => p.1 == k)
  · rw [if_pos hex]; exact h
  · rw [if_neg hex]
    refine List.Nodup.append h (List.nodup_singleton k) ?_
    rw [List.disjoint_singleton]
    intro hmem
    rcases List.mem_map.mp hmem with ⟨p, hp, hfst⟩
    exact hex (List.any_eq_true.mpr ⟨p, hp, by rw [beq_iff_eq]; exact hfst⟩)

lemma buildToVerify_keys_nodup :
    ∀ (urls : List String) (sts : List (Option Int)) (idx : Nat)
      (d : List (String × Nat)), (d.map Prod.fst).Nodup →
      ((buildToVerify urls sts idx d).map Prod.fst).Nodup := by
  intro urls
  induction urls with
  | nil => intro sts idx d h; exact h
  | cons url urls ih =>
      intro sts idx d h
      cases sts with
      | nil => exact h
      | cons s sts =>
          cases s with
          | some v0 => exact ih sts (idx + 1) d h
          | none => exact ih sts (idx + 1) _ (dictInsert_keys_nodup d url idx h)

lemma buildToVerify_keys_mem (u : String) :
    ∀ (urls : List String) (sts : List (Option Int)) (idx : Nat)
      (d : List (String × Nat)),
      (u ∈ (buildToVerify urls sts idx d).map Prod.fst
        ↔ u ∈ d.map Prod.fst
          ∨ ∃ i, urls.get? i = some u ∧ sts.get? i = some none) := by
  intro urls
  induction urls with
  | nil =>
      intro sts idx d
      simp [buildToVerify]
  | cons url urls ih =>
      intro sts idx d
      cases sts with
      | nil =>
          show u ∈ d.map Prod.fst ↔ _
          constructor
          · exact Or.inl
          · rintro (h | ⟨i, _, hsti⟩)
            · exact h
            · rw [List.get?_eq_none.mpr (by simp : ([] : List (Option Int)).length ≤ i)] at hsti
              exact Option.noConfusion hsti
      | cons s sts =>
          have hshift : (∃ i, (url :: urls).get? i = some u ∧ (s :: sts).get? i = some none)
              ↔ (s = none ∧ url = u) ∨ ∃ i, urls.get? i = some u ∧ sts.get? i = some none := by
            constructor
            · rintro ⟨i, h1, h2⟩
              cases i with
              | zero =>
                  left
                  exact ⟨Option.some_inj.mp h2, Option.some_inj.mp h1⟩
              | succ i => exact Or.inr ⟨i, h1, h2⟩
            · rintro (⟨rfl, rfl⟩ | ⟨i, h1, h2⟩)
              · exact ⟨0, rfl, rfl⟩
              · exact ⟨i + 1, h1, h2⟩
          cases s with
          | some v0 =>
              rw [buildToVerify, ih sts (idx + 1) d, hshift]
              constructor
              · rintro (h | h)
                · exact Or.inl h
                · exact Or.inr (Or.inr h)
              · rintro (h | ⟨hv, _⟩ | h)
                · exact Or.inl h
                · exact Option.noConfusion hv
                · exact Or.inr h
          | none =>
              rw [buildToVerify, ih sts (idx + 1) (dictInsert d url idx), hshift,
                dictInsert_keys_mem]
              constructor
              · rintro ((h | rfl) | h)
                · exact Or.inl h
                · exact Or.inr (Or.inl ⟨rfl, rfl⟩)
                · exact Or.inr (Or.inr h)
              · rintro (h | ⟨_, rfl⟩ | h)
                · exact Or.inl (Or.inl h)
                · exact Or.inl (Or.inr rfl)
                · exact Or.inr h

/-! Probe effects in the trace correspond one to one with to_verify keys. -/

lemma headProbe_fst (u : String) (o : ProbeOutcome) : (headProbe u o).1 = u := by
  cases o <;> rfl

lemma probe_not_mem_writeEffs (env : Env) (urls : List String) (u : String) :
    Effect.probe u ∉ writeEffsOf env urls := by
  intro hmem
  unfold writeEffsOf at hmem
  by_cases hre : env.redisUp
  · rw [if_pos hre] at hmem
    rcases List.mem_append.mp hmem with h | h
    · by_cases h0 : 0 < (toCacheOf env urls).length
      · rw [if_pos h0] at h
        simp at h
      · rw [if_neg h0] at h
        exact (List.not_mem_nil _) h
    · rcases List.mem_map.mp h with ⟨p, _, he⟩
      exact Effect.noConfusion he
  · rw [if_neg hre] at hmem
    exact (List.not_mem_nil _) hmem

lemma probe_mem_traceOf (env : Env) (ss : Nat) (prov : List Nat)
    (urls : List String) (u : String) :
    Effect.probe u ∈ traceOf env ss prov urls
      ↔ u ∈ (toVerifyOf env urls).map Prod.fst := by
  unfold traceOf
  rw [List.mem_cons, List.mem_append, List.mem_append]
  constructor
  · rintro (h | ((h | h) | h))
    · exact Effect.noConfusion h
    · rcases List.mem_map.mp h with ⟨p, hp, he⟩
      have : p.1 = u := by injection he
      exact List.mem_map.mpr ⟨p, hp, this⟩
    · exact absurd h (probe_not_mem_writeEffs env urls u)
    · simp at h
  · intro h
    rcases List.mem_map.mp h with ⟨p, hp, rfl⟩
    exact Or.inr (Or.inl (Or.inl (List.mem_map.mpr ⟨p, hp, rfl⟩)))

lemma count_probe_traceOf (env : Env) (ss : Nat) (prov : List Nat)
    (urls : List String) (u : String) :
    (traceOf env ss prov urls).count (Effect.probe u)
      = ((toVerifyOf env urls).map Prod.fst).count u := by
  have hinj : Function.Injective Effect.probe := by
    intro a b h
    injection h
  unfold traceOf
  rw [List.count_cons, List.count_append, List.count_append]
  have h1 : ((toVerifyOf env urls).map (fun p => Effect.probe p.1)).count (Effect.probe u)
      = ((toVerifyOf env urls).map Prod.fst).count u := by
    rw [show (fun p : String × Nat => Effect.probe p.1) = Effect.probe ∘ Prod.fst from rfl,
      ← List.map_map]
    exact List.count_map_of_injective _ Effect.probe hinj u
  have h2 : (writeEffsOf env urls).count (Effect.probe u) = 0 :=
    List.count_eq_zero.mpr (probe_not_mem_writeEffs env urls u)
  have h3 : ([Effect.maskLoad,
      Effect.maskSave (mergeMask env.storedMask ss prov)] : List Effect).count
      (Effect.probe u) = 0 := by
    apply List.count_eq_zero.mpr
    simp
  have h4 : (Effect.cacheRead (urls.map (fun x => CACHE_TAG ++ x))
      == Effect.probe u) = false := by
    rw [beq_eq_false_iff_ne]
    exact fun h => Effect.noConfusion h
  rw [h1, h2, h3, h4]
  simp

lemma getCachedStatuses_get (env : Env) (urls : List String) (i : Nat) (u : String)
    (hre : env.redisUp = true) (hu : urls.get? i = some u) :
    (getCachedStatuses env.redisUp env.cache urls).get? i
      = some (env.cache (CACHE_TAG ++ u)) := by
  rw [getCachedStatuses, hre, if_pos rfl, List.get?_map, hu]
  rfl

lemma mem_toCacheOf (env : Env) (urls : List String) (u : String)
    (h : u ∈ (toVerifyOf env urls).map Prod.fst) :
    (CACHE_TAG ++ u, probeStatus env u) ∈ toCacheOf env urls := by
  unfold toCacheOf
  refine List.mem_map.mpr ⟨headProbe u (env.probeOutcome u), ?_, ?_⟩
  · unfold verifiedOf makeHeadRequests
    exact List.mem_map.mpr ⟨u, h, rfl⟩
  · rw [headProbe_fst]
    rfl

lemma expire_mem_writeEffs (env : Env) (urls : List String) (u : String)
    (hre : env.redisUp = true)
    (h : u ∈ (toVerifyOf env urls).map Prod.fst) :
    Effect.expire (CACHE_TAG ++ u)
        (expiryTable env.ttlConfig env.ttlDefault (probeStatus env u))
      ∈ writeEffsOf env urls := by
  unfold writeEffsOf
  rw [if_pos hre]
  refine List.mem_append.mpr (Or.inr ?_)
  exact List.mem_map.mpr ⟨(CACHE_TAG ++ u, probeStatus env u), mem_toCacheOf env urls u h, rfl⟩

lemma cacheWrite_mem_writeEffs (env : Env) (urls : List String)
    (hre : env.redisUp = true) (h0 : 0 < (toCacheOf env urls).length) :
    Effect.cacheWrite (toCacheOf env urls) ∈ writeEffsOf env urls := by
  unfold writeEffsOf
  rw [if_pos hre, if_pos h0]
  exact List.mem_append.mpr (Or.inl (List.mem_singleton.mpr rfl))

lemma check_some_trace (env : Env) (ss : Nat) (results : List Hit)
    (urls : List String) (res : List Hit) (trace : List Effect)
    (h : check_dead_links env ss results urls = some (res, trace)) :
    (urls = [] ∧ trace = []) ∨ ∃ prov, trace = traceOf env ss prov urls := by
  by_cases hne : urls.isEmpty
  · left
    rw [check_dead_links, if_pos hne] at h
    exact ⟨List.isEmpty_iff.mp hne, (congrArg Prod.snd (Option.some_inj.mp h)).symm⟩
  · right
    rw [check_dead_links, if_neg hne] at h
    rcases hdel : deleteDead env.mappings (mergedStatuses env urls) results
      with _ | ⟨nr, prov⟩
    · rw [hdel] at h
      exact Option.noConfusion h
    · rw [hdel] at h
      exact ⟨prov, (congrArg Prod.snd (Option.some_inj.mp h)).symm⟩

/-- Claim C3: with the cache backend answering, a URL whose status is cached
is never probed, while a URL with no cache entry is probed exactly once (even
when it occupies several positions) and its fresh status — the -1 sentinel
included — is written back under the tagged key with the TTL drawn from the
per-status expiry configuration. -/
theorem cached_skipped_uncached_probed_once (env : Env) (start_slice : Nat)
    (results : List Hit) (image_urls : List String) (url : String)
    (hre : env.redisUp = true) :
    (∀ s, env.cache (CACHE_TAG ++ url) = some s →
      ∀ res trace,
        check_dead_links env start_slice results image_urls = some (res, trace) →
        Effect.probe url ∉ trace) ∧
    (env.cache (CACHE_TAG ++ url) = none → url ∈ image_urls →
      ∀ res trace,
        check_dead_links env start_slice results image_urls = some (res, trace) →
        trace.count (Effect.probe url) = 1 ∧
        Effect.expire (CACHE_TAG ++ url)
            (expiryTable env.ttlConfig env.ttlDefault (probeStatus env url)) ∈ trace ∧
        ∃ kv, Effect.cacheWrite kv ∈ trace ∧
          (CACHE_TAG ++ url, probeStatus env url) ∈ kv) := by
  constructor
  · intro s hca res trace hchk
    rcases check_some_trace env start_slice results image_urls res trace hchk with
      ⟨_, rfl⟩ | ⟨prov, rfl⟩
    · exact List.not_mem_nil _
    · rw [probe_mem_traceOf]
      intro hmem
      have hiff := (buildToVerify_keys_mem url image_urls
        (getCachedStatuses env.redisUp env.cache image_urls) 0 []).mp hmem
      rcases hiff with h | ⟨i, hui, hsti⟩
      · simp at h
      · rw [getCachedStatuses_get env image_urls i url hre hui, hca] at hsti
        simp at hsti
  · intro hca hmem res trace hchk
    rcases check_some_trace env start_slice results image_urls res trace hchk with
      ⟨rfl, rfl⟩ | ⟨prov, rfl⟩
    · simp at hmem
    · have hkey : url ∈ (toVerifyOf env image_urls).map Prod.fst := by
        rcases List.mem_iff_get?.mp hmem with ⟨i, hui⟩
        apply (buildToVerify_keys_mem url image_urls
          (getCachedStatuses env.redisUp env.cache image_urls) 0 []).mpr
        exact Or.inr ⟨i, hui, by rw [getCachedStatuses_get env image_urls i url hre hui, hca]⟩
      refine ⟨?_, ?_, ?_⟩
      · rw [count_probe_traceOf]
        exact List.count_eq_one_of_mem
          (buildToVerify_keys_nodup image_urls _ 0 [] (by simp)) hkey
      · exact List.mem_cons_of_mem _ (List.mem_append.mpr (Or.inl
          (List.mem_append.mpr (Or.inr (expire_mem_writeEffs env image_urls url hre hkey)))))
      · refine ⟨toCacheOf env image_urls, ?_, mem_toCacheOf env image_urls url hkey⟩
        have h0 : 0 < (toCacheOf env image_urls).length :=
          List.length_pos_of_mem (mem_toCacheOf env image_urls url hkey)
        exact List.mem_cons_of_mem _ (List.mem_append.mpr (Or.inl
          (List.mem_append.mpr (Or.inr (cacheWrite_mem_writeEffs env image_urls hre h0)))))

/-- Witness for C3: the miss branch at a concrete input with an empty cache
and a probe answering 200. -/
theorem cached_skipped_uncached_probed_once_witness :
    ∃ res trace, check_dead_links envA 0 [⟨"p", "A"⟩] ["u"] = some (res, trace) ∧
      trace.count (Effect.probe "u") = 1 := by
  have h := (cached_skipped_uncached_probed_once envA 0 [⟨"p", "A"⟩] ["u"] "u" rfl).2
    rfl (by decide)
  rcases hchk : check_dead_links envA 0 [⟨"p", "A"⟩] ["u"] with _ | ⟨res, trace⟩
  · have := check_dead_links_total envA 0 [⟨"p", "A"⟩] ["u"] rfl
    rw [hchk] at this
    exact Bool.noConfusion this
  · exact ⟨res, trace, rfl, (h res trace hchk).1⟩

/-- Counterexample to claim C4 as stated: the merge writes the fresh result
back through to_verify, and a duplicated uncached URL keeps only its last
position there (Python dict assignment overwrites the index).  With the
uncached URL "u" at positions 0 and 1 and a probe answering 200, position 1
receives 200 but position 0 keeps no status at all — not the fresh probe
result the claim promises — and the non-live None then deletes result A even
though its URL was verified live. -/
theorem merge_misses_duplicate_uncached :
    (mergedStatuses envA ["u", "u"]).get? 0 = some none ∧
    probeStatus envA "u" = 200 ∧
    (check_dead_links envA 0 [⟨"p", "A"⟩, ⟨"p", "B"⟩] ["u", "u"]).map Prod.fst
      = some [⟨"p", "B"⟩] := by
  refine ⟨?_, rfl, ?_⟩ <;> decide

/-! Entries of the to_verify dict point back at uncached positions. -/

lemma mem_dictInsert (d : List (String × Nat)) (k : String) (v : Nat)
    (u : String) (w : Nat) (h : (u, w) ∈ dictInsert d k v) :
    (u, w) ∈ d ∨ (u, w) = (k, v) := by
  unfold dictInsert at h
  by_cases hex : d.any (fun p => p.1 == k)
  · rw [if_pos hex] at h
    rcases List.mem_map.mp h with ⟨q, hq, he⟩
    by_cases hqk : q.1 == k
    · rw [if_pos hqk] at he
      exact Or.inr he.symm
    · rw [if_neg hqk] at he
      exact Or.inl (he ▸ hq)
  · rw [if_neg hex] at h
    rcases List.mem_append.mp h with h | h
    · exact Or.inl h
    · exact Or.inr (List.mem_singleton.mp h)

lemma buildToVerify_val :
    ∀ (urls : List String) (sts : List (Option Int)) (idx : Nat)
      (d : List (String × Nat)) (u : String) (v : Nat),
      (u, v) ∈ buildToVerify urls sts idx d →
      (u, v) ∈ d ∨ ∃ j, urls.get? j = some u ∧ sts.get? j = some none ∧ v = idx + j := by
  intro urls
  induction urls with
  | nil => intro sts idx d u v h; exact Or.inl h
  | cons url urls ih =>
      intro sts idx d u v h
      cases sts with
      | nil => exact Or.inl h
      | cons s sts =>
          cases s with
          | some v0 =>
              rcases ih sts (idx + 1) d u v h with h' | ⟨j, h1, h2, h3⟩
              · exact Or.inl h'
              · exact Or.inr ⟨j + 1, h1, h2, by omega⟩
          | none =>
              rcases ih sts (idx + 1) (dictInsert d url idx) u v h with h' | ⟨j, h1, h2, h3⟩
              · rcases mem_dictInsert d url idx u v h' with h'' | h''
                · exact Or.inl h''
                · have hu : u = url := congrArg Prod.fst h''
                  have hv : v = idx := congrArg Prod.snd h''
                  exact Or.inr ⟨0, by rw [hu]; rfl, rfl, by omega⟩
              · exact Or.inr ⟨j + 1, h1, h2, by omega⟩

lemma toVerifyOf_entry (env : Env) (urls : List String) (u : String) (v : Nat)
    (h : (u, v) ∈ toVerifyOf env urls) :
    urls.get? v = some u ∧
    (getCachedStatuses env.redisUp env.cache urls).get? v = some none := by
  rcases buildToVerify_val urls (getCachedStatuses env.redisUp env.cache urls)
      0 [] u v h with h' | ⟨j, h1, h2, h3⟩
  · exact absurd h' (List.not_mem_nil _)
  · have : v = j := by omega
    subst this
    exact ⟨h1, h2⟩

lemma toVerifyOf_entries_nodup (env : Env) (urls : List String) :
    (toVerifyOf env urls).Nodup :=
  List.Nodup.of_map Prod.fst
    (buildToVerify_keys_nodup urls (getCachedStatuses env.redisUp env.cache urls)
      0 [] (by simp))

lemma toVerifyOf_values_nodup (env : Env) (urls : List String) :
    ((toVerifyOf env urls).map (fun q => q.2)).Nodup := by
  apply List.Nodup.map_on ?_ (toVerifyOf_entries_nodup env urls)
  intro x hx y hy hxy
  have hxe := toVerifyOf_entry env urls x.1 x.2 (by simpa using hx)
  have hye := toVerifyOf_entry env urls y.1 y.2 (by simpa using hy)
  apply Prod.ext ?_ hxy
  have : some x.1 = some y.1 := by rw [← hxe.1, ← hye.1, hxy]
  exact Option.some_inj.mp this

lemma zip_self_map {α β : Type} : ∀ (l : List α) (f : α → β),
    l.zip (l.map f) = l.map (fun a => (a, f a)) := by
  intro l f
  induction l with
  | nil => rfl
  | cons a l ih => simp only [List.map_cons, List.zip_cons_cons, ih]

lemma zip_tv_verified (env : Env) (urls : List String) :
    (toVerifyOf env urls).zip (verifiedOf env urls)
      = (toVerifyOf env urls).map
          (fun q => (q, headProbe q.1 (env.probeOutcome q.1))) := by
  rw [verifiedOf, makeHeadRequests, List.map_map, zip_self_map]
  simp [Function.comp]

lemma foldl_set_get_of_not_mem :
    ∀ (l : List ((String × Nat) × (String × Int))) (init : List (Option Int))
      (i : Nat), (∀ p ∈ l, p.1.2 ≠ i) →
      (l.foldl (fun st p => st.set p.1.2 (some p.2.2)) init).get? i = init.get? i := by
  intro l
  induction l with
  | nil => intro init i _; rfl
  | cons q l ih =>
      intro init i h
      rw [List.foldl_cons, ih _ i (fun p hp => h p (List.mem_cons_of_mem q hp)),
        List.get?_set_ne _ _ (h q (List.mem_cons_self q l))]

lemma foldl_set_get_of_mem :
    ∀ (l : List ((String × Nat) × (String × Int))) (init : List (Option Int))
      (i : Nat) (val : Int),
      (l.map (fun p => p.1.2)).Nodup →
      (∃ p ∈ l, p.1.2 = i ∧ p.2.2 = val) → i < init.length →
      (l.foldl (fun st p => st.set p.1.2 (some p.2.2)) init).get? i
        = some (some val) := by
  intro l
  induction l with
  | nil =>
      intro init i val _ hex _
      rcases hex with ⟨p, hp, _⟩
      exact absurd hp (List.not_mem_nil p)
  | cons q l ih =>
      intro init i val hnd hex hi
      have hnd' : (l.map (fun p => p.1.2)).Nodup := (List.nodup_cons.mp hnd).2
      have hqnot : q.1.2 ∉ l.map (fun p => p.1.2) := (List.nodup_cons.mp hnd).1
      rcases hex with ⟨p, hp, hpi, hpv⟩
      rcases List.mem_cons.mp hp with rfl | hpl
      · have hothers : ∀ r ∈ l, r.1.2 ≠ i := by
          intro r hr hri
          apply hqnot
          rw [hpi]
          exact List.mem_map.mpr ⟨r, hr, hri⟩
        rw [List.foldl_cons, foldl_set_get_of_not_mem l _ i hothers, hpi, hpv]
        exact List.get?_set_eq_of_lt _ hi
      · rw [List.foldl_cons, ih _ i val hnd' ⟨p, hpl, hpi, hpv⟩ (by
          rw [List.length_set]; exact hi)]

/-- Claim C4 as amended: at a position whose status was cached, the merged
status is the cached one; at an uncached position, when no URL occupies more
than one position, the merged status is the fresh probe result for that
position's URL.  (At a duplicated uncached URL the code writes the fresh
result only at the URL's last position — see the counterexample.) -/
theorem merge_cached_else_fresh (env : Env) (image_urls : List String) (i : Nat)
    (u : String) (hnd : image_urls.Nodup) (hu : image_urls.get? i = some u) :
    (∀ s : Int,
      (getCachedStatuses env.redisUp env.cache image_urls).get? i = some (some s) →
      (mergedStatuses env image_urls).get? i = some (some s)) ∧
    ((getCachedStatuses env.redisUp env.cache image_urls).get? i = some none →
      (mergedStatuses env image_urls).get? i
        = some (some (probeStatus env u))) := by
  constructor
  · intro s hc
    have hnot : ∀ p ∈ (toVerifyOf env image_urls).zip (verifiedOf env image_urls),
        p.1.2 ≠ i := by
      rw [zip_tv_verified]
      intro p hp hpi
      rcases List.mem_map.mp hp with ⟨q, hq, rfl⟩
      have hqe := (toVerifyOf_entry env image_urls q.1 q.2 (by simpa using hq)).2
      have hpi' : q.2 = i := hpi
      rw [hpi'] at hqe
      rw [hqe] at hc
      exact Option.noConfusion (Option.some_inj.mp hc)
    rw [mergedStatuses, mergeVerified, foldl_set_get_of_not_mem _ _ i hnot, hc]
  · intro hc
    have hkey : u ∈ (toVerifyOf env image_urls).map Prod.fst :=
      (buildToVerify_keys_mem u image_urls
        (getCachedStatuses env.redisUp env.cache image_urls) 0 []).mpr
        (Or.inr ⟨i, hu, hc⟩)
    rcases List.mem_map.mp hkey with ⟨q, hq, hqu⟩
    have hqe := toVerifyOf_entry env image_urls q.1 q.2 (by simpa using hq)
    have h1 : image_urls.get? q.2 = some u := by rw [hqe.1, hqu]
    rcases List.get?_eq_some.mp h1 with ⟨hlt2, _⟩
    have hvi : q.2 = i := List.get?_inj hlt2 hnd (h1.trans hu.symm)
    rcases List.get?_eq_some.mp hu with ⟨hlt, _⟩
    rw [mergedStatuses, mergeVerified]
    apply foldl_set_get_of_mem
    · rw [zip_tv_verified, List.map_map]
      exact toVerifyOf_values_nodup env image_urls
    · refine ⟨(q, headProbe q.1 (env.probeOutcome q.1)), ?_, hvi, ?_⟩
      · rw [zip_tv_verified]
        exact List.mem_map.mpr ⟨q, hq, rfl⟩
      · rw [hqu]
        rfl
    · rw [length_getCachedStatuses]
      exact hlt

/-- Witness for the amended C4 at a concrete input: two distinct uncached
URLs, the probe answers 200, position 0 receives the fresh status. -/
theorem merge_cached_else_fresh_witness :
    (mergedStatuses envA ["u", "w"]).get? 0 = some (some 200) :=
  (merge_cached_else_fresh envA ["u", "w"] 0 "u" (by decide) rfl).2 (by decide)

/-- Claim C7: every status written back (the -1 sentinel included) is mapped
through the per-status expiry configuration, which falls back to the
configured default for statuses with no entry; and no failure of the caching
step — redis down (the whole env is quantified, including redisUp = false)
or a status absent from the TTL table (ttlConfig may be empty) — keeps the
validation call from returning: under the length precondition the call
always produces a value, and every expire effect in its trace carries the
configured TTL of some status. -/
theorem expiry_total_and_cache_errors_swallowed (env : Env) (start_slice : Nat)
    (results : List Hit) (image_urls : List String) (s : Int)
    (h : image_urls.length = results.length) :
    (env.ttlConfig s = none →
      expiryTable env.ttlConfig env.ttlDefault s = env.ttlDefault) ∧
    (∀ t, env.ttlConfig s = some t →
      expiryTable env.ttlConfig env.ttlDefault s = t) ∧
    (check_dead_links env start_slice results image_urls).isSome ∧
    (∀ res trace,
      check_dead_links env start_slice results image_urls = some (res, trace) →
      ∀ k ttl, Effect.expire k ttl ∈ trace →
        ∃ st : Int, ttl = expiryTable env.ttlConfig env.ttlDefault st) := by
  refine ⟨?_, ?_, check_dead_links_total env start_slice results image_urls h, ?_⟩
  · intro hcfg
    rw [expiryTable, getExpiry, hcfg]
    rfl
  · intro t hcfg
    rw [expiryTable, getExpiry, hcfg]
    rfl
  · intro res trace hchk k ttl hmem
    rcases check_some_trace env start_slice results image_urls res trace hchk with
      ⟨_, rfl⟩ | ⟨prov, rfl⟩
    · exact absurd hmem (List.not_mem_nil _)
    · unfold traceOf at hmem
      rcases List.mem_cons.mp hmem with he | hmem
      · exact Effect.noConfusion he
      rcases List.mem_append.mp hmem with hmem | hmem
      · rcases List.mem_append.mp hmem with hmem | hmem
        · rcases List.mem_map.mp hmem with ⟨p, _, he⟩
          exact Effect.noConfusion he
        · unfold writeEffsOf at hmem
          by_cases hre : env.redisUp
          · rw [if_pos hre] at hmem
            rcases List.mem_append.mp hmem with hmem | hmem
            · by_cases h0 : 0 < (toCacheOf env image_urls).length
              · rw [if_pos h0] at hmem
                have he := List.mem_singleton.mp hmem
                exact Effect.noConfusion he
              · rw [if_neg h0] at hmem
                exact absurd hmem (List.not_mem_nil _)
            · rcases List.mem_map.mp hmem with ⟨p, _, he⟩
              injection he with h1 h2
              exact ⟨p.2, h2.symm⟩
          · rw [if_neg hre] at hmem
            exact absurd hmem (List.not_mem_nil _)
      · rcases List.mem_cons.mp hmem with he | hmem
        · exact Effect.noConfusion he
        rcases List.mem_cons.mp hmem with he | hmem
        · exact Effect.noConfusion he
        · exact absurd hmem (List.not_mem_nil _)

/-- Witness for C7: the -1 sentinel has no override in the sample env, so it
falls back to the default of 60. -/
theorem expiry_total_and_cache_errors_swallowed_witness :
    expiryTable envA.ttlConfig envA.ttlDefault (-1) = 60 :=
  (expiry_total_and_cache_errors_swallowed envA 0 [⟨"p", "A"⟩] ["u"] (-1) rfl).1 rfl
